import Mathlib

set_option maxRecDepth 100000

/-!
Verification of the CodeGraph ingestion engine (arango_ingest.py and
typesense_ingest.py): a shallow embedding of the entity classifier, the
relation resolver, the identifier codec (MD5-derived keys) and the batch
sink writers, together with theorems settling the specification claims.
-/

namespace BG

/-! ### String helpers (substring test, single-character split) -/

/-- Bool test: is `p` a prefix of `l`. -/
def isPrefixList : List Char → List Char → Bool
  | [], _ => true
  | _ :: _, [] => false
  | a :: as, b :: bs => a == b && isPrefixList as bs

/-- Does pattern `p` occur as a contiguous substring of `l`. -/
def containsAux (p : List Char) : List Char → Bool
  | [] => isPrefixList p []
  | l@(_ :: rest) => isPrefixList p l || containsAux p rest

/-- Embedding of the Python substring test `pat in s`. -/
def strContains (s pat : String) : Bool := containsAux pat.data s.data

/-- Embedding of Python `str.split(sep)` for a single-character separator. -/
def splitChar (sep : Char) : List Char → List (List Char)
  | [] => [[]]
  | c :: rest =>
    match splitChar sep rest with
    | [] => [[]]
    | h :: t => if c == sep then [] :: h :: t else (c :: h) :: t

/-- Last element of a list of char-lists, `[]` when empty. -/
def lastD : List (List Char) → List Char
  | [] => []
  | [x] => x
  | _ :: x :: xs => lastD (x :: xs)

/-- Embedding of the Python expression `qname.split(".")[-1]`. -/
def lastSegment (s : String) : String := String.mk (lastD (splitChar '.' s.data))

/-! ### MD5 (RFC 1321) over natural numbers reduced mod 2^32 -/

def w32 : Nat := 4294967296

/-- UTF-8 encoding of a single code point. -/
def utf8Bytes (c : Nat) : List Nat :=
  if c < 128 then [c]
  else if c < 2048 then [192 + c / 64, 128 + c % 64]
  else if c < 65536 then [224 + c / 4096, 128 + c / 64 % 64, 128 + c % 64]
  else [240 + c / 262144, 128 + c / 4096 % 64, 128 + c / 64 % 64, 128 + c % 64]

def strBytes (s : String) : List Nat := (s.data.map (fun ch => utf8Bytes ch.toNat)).flatten

def leBytes8 (n : Nat) : List Nat :=
  [n % 256, n / 256 % 256, n / 65536 % 256, n / 16777216 % 256,
   n / 4294967296 % 256, n / 1099511627776 % 256,
   n / 281474976710656 % 256, n / 72057594037927936 % 256]

/-- MD5 padding: append 0x80, zero-pad to 56 mod 64, append 64-bit LE bit length. -/
def md5Pad (msg : List Nat) : List Nat :=
  let len := msg.length
  let z := (56 + 64 - (len + 1) % 64) % 64
  msg ++ [128] ++ List.replicate z 0 ++ leBytes8 (len * 8 % 18446744073709551616)

def md5K : List Nat :=
  [0xd76aa478, 0xe8c7b756, 0x242070db, 0xc1bdceee,
   0xf57c0faf, 0x4787c62a, 0xa8304613, 0xfd469501,
   0x698098d8, 0x8b44f7af, 0xffff5bb1, 0x895cd7be,
   0x6b901122, 0xfd987193, 0xa679438e, 0x49b40821,
   0xf61e2562, 0xc040b340, 0x265e5a51, 0xe9b6c7aa,
   0xd62f105d, 0x02441453, 0xd8a1e681, 0xe7d3fbc8,
   0x21e1cde6, 0xc33707d6, 0xf4d50d87, 0x455a14ed,
   0xa9e3e905, 0xfcefa3f8, 0x676f02d9, 0x8d2a4c8a,
   0xfffa3942, 0x8771f681, 0x6d9d6122, 0xfde5380c,
   0xa4beea44, 0x4bdecfa9, 0xf6bb4b60, 0xbebfbc70,
   0x289b7ec6, 0xeaa127fa, 0xd4ef3085, 0x04881d05,
   0xd9d4d039, 0xe6db99e5, 0x1fa27cf8, 0xc4ac5665,
   0xf4292244, 0x432aff97, 0xab9423a7, 0xfc93a039,
   0x655b59c3, 0x8f0ccc92, 0xffeff47d, 0x85845dd1,
   0x6fa87e4f, 0xfe2ce6e0, 0xa3014314, 0x4e0811a1,
   0xf7537e82, 0xbd3af235, 0x2ad7d2bb, 0xeb86d391]

def md5S : List Nat :=
  [7, 12, 17, 22, 7, 12, 17, 22, 7, 12, 17, 22, 7, 12, 17, 22,
   5, 9, 14, 20, 5, 9, 14, 20, 5, 9, 14, 20, 5, 9, 14, 20,
   4, 11, 16, 23, 4, 11, 16, 23, 4, 11, 16, 23, 4, 11, 16, 23,
   6, 10, 15, 21, 6, 10, 15, 21, 6, 10, 15, 21, 6, 10, 15, 21]

def bnot32 (x : Nat) : Nat := 4294967295 - x

def lrot (x c : Nat) : Nat := x * 2 ^ c % w32 + x / 2 ^ (32 - c)

def md5F (i b c d : Nat) : Nat :=
  if i < 16 then Nat.lor (Nat.land b c) (Nat.land (bnot32 b) d)
  else if i < 32 then Nat.lor (Nat.land d b) (Nat.land (bnot32 d) c)
  else if i < 48 then Nat.xor b (Nat.xor c d)
  else Nat.xor c (Nat.lor b (bnot32 d))

def md5G (i : Nat) : Nat :=
  if i < 16 then i
  else if i < 32 then (5 * i + 1) % 16
  else if i < 48 then (3 * i + 5) % 16
  else 7 * i % 16

/-- Little-endian 32-bit word `g` of a 64-byte chunk. -/
def chunkWord (chunk : List Nat) (g : Nat) : Nat :=
  chunk.getD (4 * g) 0 + 256 * chunk.getD (4 * g + 1) 0 +
    65536 * chunk.getD (4 * g + 2) 0 + 16777216 * chunk.getD (4 * g + 3) 0

def md5Round (chunk : List Nat) (st : Nat × Nat × Nat × Nat) (i : Nat) :
    Nat × Nat × Nat × Nat :=
  let (a, b, c, d) := st
  let f := (md5F i b c d + a + md5K.getD i 0 + chunkWord chunk (md5G i)) % w32
  (d, (b + lrot f (md5S.getD i 0)) % w32, b, c)

def md5Chunk (st : Nat × Nat × Nat × Nat) (chunk : List Nat) : Nat × Nat × Nat × Nat :=
  let (a0, b0, c0, d0) := st
  let (a, b, c, d) := (List.range 64).foldl (md5Round chunk) (a0, b0, c0, d0)
  ((a0 + a) % w32, (b0 + b) % w32, (c0 + c) % w32, (d0 + d) % w32)

/-- Process a padded message 64 bytes at a time (fuel bounds the recursion). -/
def md5Main (fuel : Nat) (st : Nat × Nat × Nat × Nat) (l : List Nat) :
    Nat × Nat × Nat × Nat :=
  match fuel with
  | 0 => st
  | fuel + 1 =>
    match l with
    | [] => st
    | _ :: _ => md5Main fuel (md5Chunk st (l.take 64)) (l.drop 64)

def md5Init : Nat × Nat × Nat × Nat := (0x67452301, 0xefcdab89, 0x98badcfe, 0x10325476)

def hexChar (n : Nat) : Char := if n < 10 then Char.ofNat (48 + n) else Char.ofNat (87 + n)

def byteHexChars (b : Nat) : List Char := [hexChar (b / 16), hexChar (b % 16)]

def wordLEBytes (w : Nat) : List Nat := [w % 256, w / 256 % 256, w / 65536 % 256, w / 16777216 % 256]

/-- Lowercase hexadecimal MD5 digest of a string (UTF-8), 32 characters. -/
def md5Hex (s : String) : String :=
  let msg := md5Pad (strBytes s)
  let (a, b, c, d) := md5Main (msg.length + 1) md5Init msg
  String.mk (((wordLEBytes a ++ wordLEBytes b ++ wordLEBytes c ++ wordLEBytes d).map byteHexChars).flatten)

/-- Embedding of `make_key` from arango_ingest.py: `hashlib.md5(qname.encode()).hexdigest()[:16]`. -/
def make_key (qname : String) : String := (md5Hex qname).take 16

/-! ### Input data model

A relation record (`rel` dict) and an entity record (`node` dict).  `Option`
models a missing (or `None`) attribute; the input mapping `data` is an
association list from qname to entity, with the dict's key uniqueness
expressed as `Nodup` on the keys where a theorem needs it. -/

structure Relation where
  rel_type : Option String := none
  source : Option String := none
  target : Option String := none
  /-- Python `rel.get("pos", {}).get("start")` -/
  pos_start : Option Nat := none
deriving DecidableEq, Repr

structure Node where
  name : Option String := none
  kind : Option String := none
  docstring : Option String := none
  filepath : Option String := none
  parent_qualified_name : Option String := none
  /-- Attribute `qualified_name`, the field read by `should_index` -/
  qualified_name : Option String := none
  code : Option String := none
  /-- Python `node.get("pos", {}).get("start")` -/
  pos_start : Option Nat := none
  /-- Python `node.get("pos", {}).get("end")` -/
  pos_end : Option Nat := none
  relations : List Relation := []
deriving DecidableEq, Repr

/-- Python dict lookup `d.get(k)` over an association list (first match). -/
def dictGet {α : Type} (l : List (String × α)) (k : String) : Option α :=
  match l with
  | [] => none
  | (k', v) :: rest => if k' = k then some v else dictGet rest k

/-- Python string truthiness: `None` and `""` are falsy. -/
def truthy : Option String → Option String
  | none => none
  | some s => if s = "" then none else some s

/-- Python number truthiness: `None` and `0` are falsy (`if pos.get("start"):`). -/
def posTruthy : Option Nat → Option Nat
  | none => none
  | some n => if n = 0 then none else some n

/-! ### arango_ingest.py: constant tables -/

/-- Table `KIND_TO_COLLECTION`: the outer `Option` is key presence in the dict,
the inner one the (possibly `None`) stored value. -/
def KIND_TO_COLLECTION : String → Option (Option String)
  | "class" => some (some "types")
  | "function" => some (some "functions")
  | "async_function" => some (some "functions")
  | "module" => some (some "modules")
  | "params_of" => some none
  | "returns" => some none
  | "import" => some none
  | "assignment" => some (some "members")
  | "augmented_assignment" => some (some "members")
  | _ => none

/-- Table `REL_TO_EDGE_COLLECTION` (`CALLED_BY` maps to `None`: inverse edge skipped). -/
def REL_TO_EDGE_COLLECTION : String → Option (Option String)
  | "CALLS" => some (some "calls")
  | "CALLED_BY" => some none
  | "INHERITS_FROM" => some (some "inherits")
  | "DECORATED_BY" => some (some "decorated_by")
  | "PARAM_OF" => some (some "param_of")
  | "RETURNS" => some (some "returns")
  | "IMPORTS" => some (some "imports")
  | "CLASS_DEF" => some (some "parent")
  | "FUNCTION_DEF" => some (some "parent")
  | _ => none

def NODE_COLLECTIONS : List String := ["functions", "types", "members", "files", "modules"]

structure EdgeDef where
  edge_collection : String
  from_vertex_collections : List String
  to_vertex_collections : List String
deriving DecidableEq, Repr

def EDGE_DEFINITIONS : List EdgeDef :=
  [⟨"calls", ["functions"], ["functions"]⟩,
   ⟨"implements", ["types"], ["types"]⟩,
   ⟨"inherits", ["types"], ["types"]⟩,
   ⟨"returns", ["functions"], ["types"]⟩,
   ⟨"param_of", ["types"], ["functions"]⟩,
   ⟨"parent", ["functions", "members"], ["types", "files", "modules"]⟩,
   ⟨"imports", ["files", "modules"], ["modules"]⟩,
   ⟨"decorated_by", ["functions", "types"], ["functions"]⟩]

/-- The edge-collection names (`{e["edge_collection"] for e in EDGE_DEFINITIONS}`). -/
def edgeCollections : List String :=
  ["calls", "implements", "inherits", "returns", "param_of", "parent", "imports", "decorated_by"]

/-! ### arango_ingest.py: classifier -/

/-- Embedding of `determine_collection` from arango_ingest.py. -/
def determine_collection (node : Node) : Option String :=
  match node.kind with
  | none => none
  | some kind =>
    match KIND_TO_COLLECTION kind with
    | some (some coll) =>
      if kind = "assignment" ∨ kind = "augmented_assignment" then
        match truthy node.parent_qualified_name with
        | some parent_qname =>
          if strContains parent_qname ".assignment." then none else some "members"
        | none => none
      else some coll
    | _ => none

/-- Lean document built for one classified node (the dict pushed into
`batches[collection]` in `ingest_nodes`). -/
structure NodeDoc where
  _key : String
  qname : String
  name : Option String
  kind : Option String
  /-- Field `"doc"` of the document -/
  doc : Option String
  filepath : Option String
  /-- Field `"namespace"` of the document -/
  nspace : Option String
  language : String
  pos : Option Nat
  endPos : Option Nat
  is_async : Bool
  is_method : Bool
deriving DecidableEq, Repr

/-- The document `ingest_nodes` builds for entity `(qname, node)` classified
into `collection`; `data` is the full input mapping (parent lookup for
`is_method`). -/
def mkNodeDoc (data : List (String × Node)) (qname : String) (node : Node)
    (collection : String) : NodeDoc :=
  { _key := make_key qname
    qname := qname
    name := node.name
    kind := if node.kind == some "async_function" then some "function" else node.kind
    doc := node.docstring
    filepath := node.filepath
    nspace := node.parent_qualified_name
    language := "python"
    pos := node.pos_start
    endPos := node.pos_end
    is_async := node.kind == some "async_function"
    is_method :=
      collection == "functions" &&
        (match truthy node.parent_qualified_name with
         | some p =>
           (match dictGet data p with
            | some parent => parent.kind == some "class"
            | none => false)
         | none => false) }

/-- The `(collection, document)` stream produced by the classification loop of
`ingest_nodes` over `l` (with `data` the full mapping for parent lookups). -/
def nodeDocsOfAux (data : List (String × Node)) (l : List (String × Node)) :
    List (String × NodeDoc) :=
  l.filterMap fun p =>
    (determine_collection p.2).map fun c => (c, mkNodeDoc data p.1 p.2 c)

def nodeDocsOf (data : List (String × Node)) : List (String × NodeDoc) :=
  nodeDocsOfAux data data

/-- The routing table `qname_to_collection` built by `ingest_nodes`. -/
def routeOf (data : List (String × Node)) : List (String × String) :=
  data.filterMap fun p => (determine_collection p.2).map fun c => (p.1, c)

/-! ### arango_ingest.py: relation resolver -/

structure EdgeDoc where
  _key : String
  _from : String
  _to : String
  call_site_pos : Option Nat
deriving DecidableEq, Repr

/-- One resolved relation: the edge collection it is appended to, the resolved
endpoint node classes (the locals `source_coll` / `target_coll` at emission
time), and the emitted edge document. -/
structure ResolvedEdge where
  edge_coll : String
  source_coll : String
  target_coll : String
  doc : EdgeDoc
deriving DecidableEq, Repr

/-- Constructor-call redirection step of `ingest_edges`: returns the
(possibly rewritten) target qname and its node class, or `none` when the
relation is dropped (`__init__` absent from the routing table). -/
def redirectTarget (route : List (String × String)) (edge_coll target : String) :
    Option (String × Option String) :=
  if edge_coll = "calls" ∧ dictGet route target = some "types" then
    match dictGet route (target ++ ".__init__") with
    | some c => some (target ++ ".__init__", some c)
    | none => none
  else some (target, dictGet route target)

/-- Parent-target inference step of `ingest_edges`: a `parent` edge whose
target has no routing entry may still resolve when the target is a module
entity in the input data. -/
def inferParentTarget (data : List (String × Node)) (edge_coll target : String) :
    Option String → Option String
  | some c => some c
  | none =>
    if edge_coll = "parent" then
      match dictGet data target with
      | some tn => if tn.kind == some "module" then some "modules" else none
      | none => none
    else none

/-- Resolution of one relation by `ingest_edges` (the body of the inner loop
up to the append; `none` means `continue`). -/
def resolveRel (data : List (String × Node)) (route : List (String × String))
    (rel : Relation) : Option ResolvedEdge :=
  match truthy rel.rel_type, truthy rel.source, truthy rel.target with
  | some rel_type, some source, some target0 =>
    match REL_TO_EDGE_COLLECTION rel_type with
    | some (some edge_coll) =>
      match redirectTarget route edge_coll target0 with
      | some (target, target_coll0) =>
        match dictGet route source, inferParentTarget data edge_coll target target_coll0 with
        | some source_coll, some target_coll =>
          some { edge_coll := edge_coll
                 source_coll := source_coll
                 target_coll := target_coll
                 doc := { _key := make_key (source ++ ":" ++ target ++ ":" ++ rel_type)
                          _from := source_coll ++ "/" ++ make_key source
                          _to := target_coll ++ "/" ++ make_key target
                          call_site_pos :=
                            if edge_coll = "calls" then posTruthy rel.pos_start else none } }
        | _, _ => none
      | none => none
    | _ => none
  | _, _, _ => none

/-- All resolved edges of a run of `ingest_edges` over `data` with routing
table `route`, in emission order. -/
def edgeResolutionsOf (data : List (String × Node)) (route : List (String × String)) :
    List ResolvedEdge :=
  data.flatMap fun p => p.2.relations.filterMap (resolveRel data route)

/-! ### Batch sink writers

A flush of a batch is modelled by an oracle `String → List α → Bool` saying
whether the bulk-import call succeeds (`false` = the client raises).  Every
`import_bulk` / `documents.import_` call made is recorded as a `FlushEvent`
in call order. -/

structure FlushEvent (α : Type) where
  coll : String
  docs : List α
  ok : Bool
deriving DecidableEq, Repr

/-- Pointwise update of a buffer table. -/
def updateB {α : Type} (f : String → List α) (k : String) (v : List α) :
    String → List α :=
  fun k' => if k' = k then v else f k'

/-- Documents delivered to collection `c` across the recorded flush events
(concatenation of the flushed batches for `c`). -/
def evDocs {α : Type} (events : List (FlushEvent α)) (c : String) : List α :=
  (events.filter fun ev => ev.coll == c).flatMap FlushEvent.docs

/-! #### ingest_nodes (NO try/except around its import_bulk calls) -/

structure NState where
  route : List (String × String)
  batches : String → List NodeDoc
  events : List (FlushEvent NodeDoc)

/-- One iteration of the `ingest_nodes` loop.  A failing flush raises, which
is modelled as `Except.error` carrying the state at the raise. -/
def nodeStep (flush : String → List NodeDoc → Bool) (data : List (String × Node))
    (st : NState) (e : String × Node) : Except NState NState :=
  match determine_collection e.2 with
  | none => .ok st
  | some collection =>
    let route' := st.route ++ [(e.1, collection)]
    let doc := mkNodeDoc data e.1 e.2 collection
    let b := st.batches collection ++ [doc]
    if 1000 ≤ b.length then
      let ok := flush collection b
      if ok then
        .ok { route := route', batches := updateB st.batches collection []
              events := st.events ++ [⟨collection, b, ok⟩] }
      else
        .error { route := route', batches := updateB st.batches collection b
                 events := st.events ++ [⟨collection, b, ok⟩] }
    else
      .ok { route := route', batches := updateB st.batches collection b
            events := st.events }

def nodeLoop (flush : String → List NodeDoc → Bool) (data : List (String × Node)) :
    List (String × Node) → NState → Except NState NState
  | [], st => .ok st
  | e :: rest, st =>
    match nodeStep flush data st e with
    | .ok st' => nodeLoop flush data rest st'
    | .error st' => .error st'

/-- The `# Flush remaining` loop of `ingest_nodes` (iterating the batch table
in `NODE_COLLECTIONS` insertion order; an exception propagates). -/
def nodeFinalFlush (flush : String → List NodeDoc → Bool) :
    List String → NState → Except NState NState
  | [], st => .ok st
  | c :: cs, st =>
    match st.batches c with
    | [] => nodeFinalFlush flush cs st
    | docs =>
      let ok := flush c docs
      if ok then nodeFinalFlush flush cs { st with events := st.events ++ [⟨c, docs, ok⟩] }
      else .error { st with events := st.events ++ [⟨c, docs, ok⟩] }

/-- Embedding of `ingest_nodes`: classification loop then final flush.  `Except.error`
models an uncaught bulk-import exception aborting the function. -/
def ingest_nodes (flush : String → List NodeDoc → Bool) (data : List (String × Node)) :
    Except NState NState :=
  match nodeLoop flush data data ⟨[], fun _ => [], []⟩ with
  | .ok st => nodeFinalFlush flush NODE_COLLECTIONS st
  | .error st => .error st

/-! #### ingest_edges (import_bulk wrapped in try/except: a failure is logged
and the loop continues) -/

structure EState where
  batches : String → List EdgeDoc
  events : List (FlushEvent EdgeDoc)

def edgeStep (flush : String → List EdgeDoc → Bool) (st : EState)
    (r : ResolvedEdge) : EState :=
  let b := st.batches r.edge_coll ++ [r.doc]
  if 1000 ≤ b.length then
    { batches := updateB st.batches r.edge_coll []
      events := st.events ++ [⟨r.edge_coll, b, flush r.edge_coll b⟩] }
  else { st with batches := updateB st.batches r.edge_coll b }

def edgeFinalFlush (flush : String → List EdgeDoc → Bool) :
    List String → EState → EState
  | [], st => st
  | c :: cs, st =>
    match st.batches c with
    | [] => edgeFinalFlush flush cs st
    | docs => edgeFinalFlush flush cs { st with events := st.events ++ [⟨c, docs, flush c docs⟩] }

/-- Embedding of `ingest_edges` over an already-resolved edge stream (resolution itself is
`edgeResolutionsOf`; a relation resolving to `none` is a `continue`). -/
def ingest_edges (flush : String → List EdgeDoc → Bool) (data : List (String × Node))
    (route : List (String × String)) : EState :=
  edgeFinalFlush flush edgeCollections
    ((edgeResolutionsOf data route).foldl (edgeStep flush) ⟨fun _ => [], []⟩)

/-! ### typesense_ingest.py -/

def INDEXABLE_KINDS : List String :=
  ["class", "function", "async_function", "module", "assignment"]

/-- Insert `"_"` before every uppercase letter not at position 0
(`re.sub(r"(?<!^)(?=[A-Z])", "_", name)`). -/
def insUndTail : List Char → List Char
  | [] => []
  | c :: cs => (if c.isUpper then ['_', c] else [c]) ++ insUndTail cs

def insertUnderscores (s : String) : String :=
  match s.data with
  | [] => ""
  | c :: cs => String.mk (c :: insUndTail cs)

/-- Embedding of `make_name_variants` from typesense_ingest.py. -/
def make_name_variants : Option String → List String
  | none => []
  | some name =>
    if name = "" then []
    else
      let variants := [name]
      let lower := name.toLower
      let variants := if lower ∈ variants then variants else variants ++ [lower]
      let snake := (insertUnderscores name).toLower
      let variants := if snake ∈ variants then variants else variants ++ [snake]
      let no_underscore := name.replace "_" ""
      if no_underscore ∈ variants then variants else variants ++ [no_underscore]

/-- Embedding of `should_index` from typesense_ingest.py. -/
def should_index (node : Node) : Bool :=
  (match node.kind with
   | some kind => INDEXABLE_KINDS.contains kind
   | none => false) &&
  (let qname := node.qualified_name.getD ""
   !(strContains qname ".param." || strContains qname ".return" || strContains qname ".yields."))

structure SearchDoc where
  id : String
  qname : String
  name : String
  name_variants : List String
  kind : String
  language : String
  code : Option String
  doc : Option String
  filepath : Option String
  nspace : Option String
  pos : Option Nat
  endPos : Option Nat
deriving DecidableEq, Repr

/-- The document `ingest_documents` builds for entity `(qname, node)`. -/
def buildSearchDoc (qname : String) (node : Node) : SearchDoc :=
  let name :=
    match truthy node.name with
    | some s => s
    | none => lastSegment qname
  { id := (qname.replace "/" "_").replace "." "_"
    qname := qname
    name := name
    name_variants := make_name_variants (some name)
    kind := node.kind.getD "unknown"
    language := "python"
    code := truthy node.code
    doc := truthy node.docstring
    filepath := truthy node.filepath
    nspace := truthy node.parent_qualified_name
    pos := posTruthy node.pos_start
    endPos := posTruthy node.pos_end }

/-- The document stream of `ingest_documents` (entities passing
`should_index`, in input order). -/
def searchDocsOf (data : List (String × Node)) : List SearchDoc :=
  data.filterMap fun p =>
    if should_index p.2 then some (buildSearchDoc p.1 p.2) else none

structure TState where
  batch : List SearchDoc
  events : List (FlushEvent SearchDoc)
  total_indexed : Nat
deriving Repr

def tsStep (flush : String → List SearchDoc → Bool) (collection_name : String)
    (st : TState) (d : SearchDoc) : TState :=
  let b := st.batch ++ [d]
  if 100 ≤ b.length then
    let ok := flush collection_name b
    { batch := []
      events := st.events ++ [⟨collection_name, b, ok⟩]
      total_indexed := st.total_indexed + (if ok then b.length else 0) }
  else { st with batch := b }

/-- Embedding of `ingest_documents`: batched upserts (failures caught and logged), final
flush of the remaining batch, returning the state with `total_indexed`. -/
def ingest_documents (flush : String → List SearchDoc → Bool)
    (data : List (String × Node)) (collection_name : String) : TState :=
  let st := (searchDocsOf data).foldl (tsStep flush collection_name) ⟨[], [], 0⟩
  match st.batch with
  | [] => st
  | b =>
    let ok := flush collection_name b
    { batch := []
      events := st.events ++ [⟨collection_name, b, ok⟩]
      total_indexed := st.total_indexed + (if ok then b.length else 0) }

/-! ### Delivered-document accessors (all flushes succeeding) -/

/-- Documents delivered to node collection `c` by `ingest_nodes` when every
flush succeeds. -/
def nodesDeliveredTo (data : List (String × Node)) (c : String) : List NodeDoc :=
  match ingest_nodes (fun _ _ => true) data with
  | .ok st => evDocs st.events c
  | .error st => evDocs st.events c

/-- Documents delivered to edge collection `c` by `ingest_edges` when every
flush succeeds. -/
def edgesDeliveredTo (data : List (String × Node)) (route : List (String × String))
    (c : String) : List EdgeDoc :=
  evDocs (ingest_edges (fun _ _ => true) data route).events c

/-- Documents delivered to the search collection by `ingest_documents` when
every flush succeeds. -/
def searchDelivered (data : List (String × Node)) (cn : String) : List SearchDoc :=
  evDocs (ingest_documents (fun _ _ => true) data cn).events cn

/-- The classified node documents destined for collection `c`. -/
def classifiedTo (data l : List (String × Node)) (c : String) : List NodeDoc :=
  ((nodeDocsOfAux data l).filter fun p => p.1 == c).map Prod.snd

/-- The resolved edge documents destined for edge collection `c`. -/
def resolvedTo (data : List (String × Node)) (route : List (String × String))
    (c : String) : List EdgeDoc :=
  ((edgeResolutionsOf data route).filter fun r => r.edge_coll == c).map ResolvedEdge.doc

/-! ### Definitions taken from the specification's words (for comparison
with the code-derived definitions above) -/

/-- Deduplicate a list of strings keeping the first occurrence of each. -/
def dedupKeepFirst (l : List String) : List String :=
  l.foldl (fun acc s => if s ∈ acc then acc else acc ++ [s]) []

/-- The spec's description of `Variants(name)`: original, lowercase,
snake-case (underscore before each internal uppercase letter, then
lowercased), underscores removed; deduplicated keeping first occurrence;
empty for `None` or the empty string. -/
def specVariants : Option String → List String
  | none => []
  | some name =>
    if name = "" then []
    else
      dedupKeepFirst
        [name, name.toLower, (insertUnderscores name).toLower, name.replace "_" ""]

/-- The spec's scope test for assignments: the parent qname's lexical chain
(following `parent_qualified_name` links through the input mapping) passes
through another assignment-kind entity.  Fuel bounds the walk. -/
def specChainThroughAssignment (data : List (String × Node)) :
    Nat → Option String → Bool
  | 0, _ => false
  | _ + 1, none => false
  | fuel + 1, some q =>
    match dictGet data q with
    | none => false
    | some n =>
      (n.kind == some "assignment" || n.kind == some "augmented_assignment") ||
        specChainThroughAssignment data fuel n.parent_qualified_name

/-- The spec's description of the name fallback: the substring of the qname
after its last `"."` (the whole qname when it contains no dot). -/
def specAfterLastDot (s : String) : String :=
  String.mk ((s.data.reverse.takeWhile (fun c => c != '.')).reverse)

/-- An emitted edge satisfies its edge collection's declared from/to
vertex-collection constraints (`EDGE_DEFINITIONS`). -/
def edgeConstraintOk (r : ResolvedEdge) : Bool :=
  EDGE_DEFINITIONS.any fun d =>
    d.edge_collection == r.edge_coll &&
    d.from_vertex_collections.contains r.source_coll &&
    d.to_vertex_collections.contains r.target_coll

/-! ### Concrete inputs used by counterexamples and witnesses -/

/-- A function `f` whose one relation is a constructor call to class `C`,
where the entity named `C.__init__` is itself of kind `class` (legal Python:
`class __init__` nested in `C`), so the routing table sends `C.__init__` to
node class `types`, not `functions`. -/
def c1data : List (String × Node) :=
  [("f", { kind := some "function",
           relations := [{ rel_type := some "CALLS", source := some "f", target := some "C" }] }),
   ("C", { kind := some "class" }),
   ("C.__init__", { kind := some "class" })]

def c1route : List (String × String) :=
  [("f", "functions"), ("C", "types"), ("C.__init__", "functions")]

def c1rel : Relation :=
  { rel_type := some "CALLS", source := some "f", target := some "C" }

/-- An `INHERITS_FROM` relation between two functions: both endpoints
resolve, so an `inherits` edge is emitted although `inherits` declares
`types`-to-`types` endpoints. -/
def c2data : List (String × Node) :=
  [("f", { kind := some "function",
           relations := [{ rel_type := some "INHERITS_FROM", source := some "f", target := some "g" }] }),
   ("g", { kind := some "function" })]

/-- One function and one class, so that the final flush of `ingest_nodes` has
a non-empty `functions` batch followed by a non-empty `types` batch. -/
def c3data : List (String × Node) :=
  [("f", { kind := some "function" }), ("C", { kind := some "class" })]

/-- A sink whose bulk-import raises exactly on the `functions` collection. -/
def c3flush : String → List NodeDoc → Bool := fun c _ => c != "functions"

/-- Probe of the run of `ingest_nodes` against the failing sink: it ended in
an uncaught exception, the only attempted flush was the `functions` one, and
the non-empty `types` batch was never attempted. -/
def c3probe : Bool :=
  match ingest_nodes c3flush c3data with
  | .error st => (st.events.map FlushEvent.coll == ["functions"]) && !(st.batches "types").isEmpty
  | .ok _ => false

/-- Module `m`, module-level assignment `m.a`, and assignment `m.a.b` whose
parent is the assignment `m.a`: the parent chain of `m.a.b` passes through an
assignment-kind entity, yet its parent qname contains no `".assignment."`. -/
def c6data : List (String × Node) :=
  [("m", { kind := some "module" }),
   ("m.a", { kind := some "assignment", parent_qualified_name := some "m" }),
   ("m.a.b", { kind := some "assignment", parent_qualified_name := some "m.a" })]

def c6node : Node := { kind := some "assignment", parent_qualified_name := some "m.a" }

/-! ### Claim C7: name variants -/

/-- C7.  `Variants(name)` returns, in first-occurrence order with duplicates
removed, exactly: the original name, its lowercase form, the snake-case form
(underscore inserted before each internal uppercase letter, then lowercased),
and the name with all underscores removed; `Variants(None)` and
`Variants("")` are the empty list.  `make_name_variants` agrees with the
spec-worded `specVariants` on every input. -/
theorem make_name_variants_eq_specVariants (name : Option String) :
    make_name_variants name = specVariants name := by
  cases name with
  | none => rfl
  | some n => rfl

/-! ### Claim C6: scope filter for assignments (corrected) -/

/-- C6 counterexample.  The entity `m.a.b` of kind `assignment` has a parent
chain that passes through the assignment-kind entity `m.a` (so the claim says
it is function-local and must produce no node), yet `determine_collection`
classifies it into `members`: the code tests only for the substring
`".assignment."` in the parent qname, not for assignment-kind entities along
the chain. -/
theorem c6_chain_counterexample :
    determine_collection c6node = some "members" ∧
    specChainThroughAssignment c6data 3 c6node.parent_qualified_name = true ∧
    dictGet c6data "m.a.b" = some c6node := by
  refine ⟨rfl, rfl, rfl⟩

/-- C6 amended.  An entity of kind `assignment` or `augmented_assignment` is
classified into `members` exactly when its `parent_qualified_name` is present,
non-empty, and does not contain the substring `".assignment."`; this lexical
heuristic is the code's scope test (entity kinds along the parent chain are
never consulted). -/
theorem determine_collection_assignment_iff (n : Node)
    (hk : n.kind = some "assignment" ∨ n.kind = some "augmented_assignment") :
    determine_collection n = some "members" ↔
      ∃ p, n.parent_qualified_name = some p ∧ p ≠ "" ∧
        strContains p ".assignment." = false := by
  have hKC : KIND_TO_COLLECTION "assignment" = some (some "members") := rfl
  have hKC' : KIND_TO_COLLECTION "augmented_assignment" = some (some "members") := rfl
  rcases hk with hk | hk <;>
  · simp only [determine_collection, hk, hKC, hKC']
    cases hp : n.parent_qualified_name with
    | none => simp [truthy]
    | some p =>
      by_cases hp0 : p = ""
      · subst hp0; simp [truthy]
      · simp only [truthy, if_neg hp0]
        by_cases hs : strContains p ".assignment." = true
        · simp [hs, hp0]
        · simp only [Bool.not_eq_true] at hs
          simp [hs, hp0]

/-- C6 amended, witness: a module-level assignment (`parent = "m"`). -/
theorem determine_collection_assignment_iff_witness :
    determine_collection { kind := some "assignment", parent_qualified_name := some "m" } =
        some "members" ↔
      ∃ p, ({ kind := some "assignment", parent_qualified_name := some "m" } : Node).parent_qualified_name = some p ∧ p ≠ "" ∧
        strContains p ".assignment." = false :=
  determine_collection_assignment_iff _ (Or.inl rfl)

/-! ### Claim C1: constructor-call redirection (corrected) -/

/-- C1 counterexample.  On `c1data` the routing table built by the classifier
maps `C.__init__` to node class `types` (the `C.__init__` entity's kind is
`class`), and the emitted calls edge's target is
`types/<key of C.__init__>`, not under node class `functions` as the claim
states. -/
theorem c1_target_class_counterexample :
    (edgeResolutionsOf c1data (routeOf c1data)).map ResolvedEdge.target_coll = ["types"] ∧
    (edgeResolutionsOf c1data (routeOf c1data)).map (fun r => r.doc._to) =
      ["types" ++ "/" ++ make_key "C.__init__"] ∧
    ¬ (edgeResolutionsOf c1data (routeOf c1data)).map (fun r => r.doc._to) =
      ["functions" ++ "/" ++ make_key "C.__init__"] := by
  refine ⟨by decide, by decide, by decide⟩

/-- C1 amended.  For a relation whose edge class is `calls` and whose target
routes to node class `types`, resolution rewrites the target qname to
`target + ".__init__"`: if that qname is absent from the routing table the
relation is dropped; if it is present with node class `c`, the emitted edge's
target is the storage key of the initializer qname (never the class's own
key) under the routing table's node class `c` for that qname — which is
`"functions"` whenever the initializer entity classified as a function, but
follows the routing table in general. -/
theorem resolveRel_constructor_redirect (data : List (String × Node))
    (route : List (String × String)) (rel : Relation) (rt src tgt sc : String)
    (hrt : truthy rel.rel_type = some rt) (hsrc : truthy rel.source = some src)
    (htgt : truthy rel.target = some tgt)
    (hec : REL_TO_EDGE_COLLECTION rt = some (some "calls"))
    (htc : dictGet route tgt = some "types")
    (hsc : dictGet route src = some sc) :
    (dictGet route (tgt ++ ".__init__") = none → resolveRel data route rel = none) ∧
    ∀ c, dictGet route (tgt ++ ".__init__") = some c →
      resolveRel data route rel = some
        { edge_coll := "calls", source_coll := sc, target_coll := c
          doc := { _key := make_key (src ++ ":" ++ (tgt ++ ".__init__") ++ ":" ++ rt)
                   _from := sc ++ "/" ++ make_key src
                   _to := c ++ "/" ++ make_key (tgt ++ ".__init__")
                   call_site_pos := posTruthy rel.pos_start } } := by
  constructor
  · intro h
    simp [resolveRel, hrt, hsrc, htgt, hec, redirectTarget, htc, h]
  · intro c hc
    simp [resolveRel, hrt, hsrc, htgt, hec, redirectTarget, htc, hc, hsc, inferParentTarget]

/-- C1 amended, witness: a routing table in which `C.__init__` is a
function; the redirected edge targets `functions/<key of C.__init__>`. -/
theorem resolveRel_constructor_redirect_witness :
    resolveRel [] c1route c1rel = some
      { edge_coll := "calls", source_coll := "functions", target_coll := "functions"
        doc := { _key := make_key ("f" ++ ":" ++ ("C" ++ ".__init__") ++ ":" ++ "CALLS")
                 _from := "functions" ++ "/" ++ make_key "f"
                 _to := "functions" ++ "/" ++ make_key ("C" ++ ".__init__")
                 call_site_pos := posTruthy c1rel.pos_start } } :=
  (resolveRel_constructor_redirect [] c1route c1rel "CALLS" "f" "C" "functions"
    rfl rfl rfl rfl (by decide) (by decide)).2 "functions" (by decide)

/-! ### Claim C2: edge-class constraints (corrected) -/

/-- C2 counterexample.  On `c2data` resolution emits an `inherits` edge whose
endpoints are both in node class `functions`: the declared `types`-to-`types`
constraint of the `inherits` collection is violated at resolution time; no
constraint check exists in `ingest_edges`. -/
theorem c2_constraint_counterexample :
    (edgeResolutionsOf c2data (routeOf c2data)).map
        (fun r => (r.edge_coll, r.source_coll, r.target_coll)) =
      [("inherits", "functions", "functions")] ∧
    (edgeResolutionsOf c2data (routeOf c2data)).all edgeConstraintOk = false := by
  refine ⟨by decide, by decide⟩

/-! #### Inversion lemmas about classification and resolution -/

theorem dictGet_mem {α : Type} {l : List (String × α)} {k : String} {v : α}
    (h : dictGet l k = some v) : (k, v) ∈ l := by
  induction l with
  | nil => cases h
  | cons x rest ih =>
    rw [dictGet] at h
    by_cases hx : x.1 = k
    · rw [if_pos hx] at h
      cases h
      subst hx
      exact List.mem_cons_self _ _
    · rw [if_neg hx] at h
      exact List.mem_cons_of_mem x (ih h)

theorem KIND_TO_COLLECTION_range {k c : String}
    (h : KIND_TO_COLLECTION k = some (some c)) : c ∈ NODE_COLLECTIONS := by
  unfold KIND_TO_COLLECTION at h
  split at h <;> simp_all <;> subst h <;> decide

theorem determine_collection_range {n : Node} {c : String}
    (h : determine_collection n = some c) : c ∈ NODE_COLLECTIONS := by
  unfold determine_collection at h
  split at h
  · cases h
  · rename_i kind _
    split at h
    · rename_i coll hKC
      split at h
      · split at h
        · split at h
          · cases h
          · cases h
            decide
        · cases h
      · cases h
        exact KIND_TO_COLLECTION_range hKC
    · cases h

theorem routeOf_range {data : List (String × Node)} {k c : String}
    (h : dictGet (routeOf data) k = some c) : c ∈ NODE_COLLECTIONS := by
  have hmem := dictGet_mem h
  rw [routeOf] at hmem
  obtain ⟨p, _, hp⟩ := List.mem_filterMap.mp hmem
  obtain ⟨c', hc', heq⟩ := Option.map_eq_some'.mp hp
  cases heq
  exact determine_collection_range hc'

theorem redirectTarget_sound {route : List (String × String)} {ec t0 t : String}
    {tc0 : Option String} (h : redirectTarget route ec t0 = some (t, tc0)) :
    tc0 = dictGet route t := by
  unfold redirectTarget at h
  split at h
  · split at h
    · rename_i c hc
      cases h
      exact hc.symm
    · cases h
  · cases h
    rfl

theorem inferParentTarget_cases {data : List (String × Node)} {ec t tc : String}
    {tc0 : Option String} (h : inferParentTarget data ec t tc0 = some tc) :
    tc0 = some tc ∨ tc = "modules" := by
  cases tc0 with
  | some c =>
    left
    rw [inferParentTarget] at h
    exact h
  | none =>
    right
    rw [inferParentTarget] at h
    split at h
    · split at h
      · split at h
        · cases h; rfl
        · cases h
      · cases h
    · cases h

theorem REL_TO_EDGE_COLLECTION_range {rt ec : String}
    (h : REL_TO_EDGE_COLLECTION rt = some (some ec)) : ec ∈ edgeCollections := by
  unfold REL_TO_EDGE_COLLECTION at h
  split at h <;> simp_all <;> subst h <;> decide

/-- Anatomy of a successfully resolved relation: its edge collection comes
from the rel_type table, its source node class from the routing table, and
its target node class from the routing table (possibly at the redirected
initializer qname) or from module inference. -/
theorem resolveRel_inv {data : List (String × Node)} {route : List (String × String)}
    {rel : Relation} {r : ResolvedEdge} (h : resolveRel data route rel = some r) :
    (∃ rt, REL_TO_EDGE_COLLECTION rt = some (some r.edge_coll)) ∧
    (∃ s, dictGet route s = some r.source_coll) ∧
    ((∃ t, dictGet route t = some r.target_coll) ∨ r.target_coll = "modules") := by
  unfold resolveRel at h
  split at h
  case _ rt src tgt _ _ _ =>
    split at h
    case _ ec hec =>
      split at h
      case _ tgt' tc0 hred =>
        split at h
        case _ sc tc hsc hinf =>
          cases h
          refine ⟨⟨rt, hec⟩, ⟨src, hsc⟩, ?_⟩
          rcases inferParentTarget_cases hinf with htc | htc
          · left
            refine ⟨tgt', ?_⟩
            rw [← redirectTarget_sound hred, htc]
          · right
            exact htc
        case _ => cases h
      case _ => cases h
    case _ => cases h
  case _ => cases h

/-- C2 amended.  Every edge emitted by resolution (with the routing table
built by the classifier) has both endpoint node classes inside the fixed
node-class set `NODE_COLLECTIONS`; the per-edge-class from/to constraints of
`EDGE_DEFINITIONS`, however, are not checked at resolution time and can be
violated (see the counterexample). -/
theorem edgeResolutions_node_classes (data : List (String × Node)) :
    (edgeResolutionsOf data (routeOf data)).all
      (fun r => NODE_COLLECTIONS.contains r.source_coll &&
                NODE_COLLECTIONS.contains r.target_coll) = true := by
  rw [List.all_eq_true]
  intro r hr
  rw [edgeResolutionsOf] at hr
  obtain ⟨p, _, hrel⟩ := List.mem_flatMap.mp hr
  obtain ⟨rel, _, hres⟩ := List.mem_filterMap.mp hrel
  obtain ⟨_, ⟨s, hs⟩, htgt⟩ := resolveRel_inv hres
  have hsrc : r.source_coll ∈ NODE_COLLECTIONS := routeOf_range hs
  have htgt' : r.target_coll ∈ NODE_COLLECTIONS := by
    rcases htgt with ⟨t, ht⟩ | ht
    · exact routeOf_range ht
    · rw [ht]; decide
  rw [Bool.and_eq_true]
  exact ⟨List.elem_eq_true_of_mem hsrc, List.elem_eq_true_of_mem htgt'⟩

/-! ### Claim C3: flush-failure isolation (corrected) -/

/-- The projection of a flush event that forgets whether the flush
succeeded: which collection was targeted and with which batch. -/
def evAttempt {α : Type} (ev : FlushEvent α) : String × List α := (ev.coll, ev.docs)

theorem edgeLoop_events_indep (f g : String → List EdgeDoc → Bool) :
    ∀ (l : List ResolvedEdge) (st₁ st₂ : EState),
      st₁.batches = st₂.batches →
      st₁.events.map evAttempt = st₂.events.map evAttempt →
      (l.foldl (edgeStep f) st₁).batches = (l.foldl (edgeStep g) st₂).batches ∧
      (l.foldl (edgeStep f) st₁).events.map evAttempt =
        (l.foldl (edgeStep g) st₂).events.map evAttempt := by
  intro l
  induction l with
  | nil => intro st₁ st₂ hb he; exact ⟨hb, he⟩
  | cons r rest ih =>
    intro st₁ st₂ hb he
    rw [List.foldl_cons, List.foldl_cons]
    apply ih
    · rw [edgeStep, edgeStep, hb]
      split <;> rfl
    · rw [edgeStep, edgeStep, hb]
      split
      · simp only [List.map_append, he, List.map_cons, evAttempt]
      · exact he

theorem edgeFinalFlush_events_indep (f g : String → List EdgeDoc → Bool) :
    ∀ (cs : List String) (st₁ st₂ : EState),
      st₁.batches = st₂.batches →
      st₁.events.map evAttempt = st₂.events.map evAttempt →
      (edgeFinalFlush f cs st₁).events.map evAttempt =
        (edgeFinalFlush g cs st₂).events.map evAttempt := by
  intro cs
  induction cs with
  | nil => intro st₁ st₂ _ he; exact he
  | cons c rest ih =>
    intro st₁ st₂ hb he
    rw [edgeFinalFlush, edgeFinalFlush, ← hb]
    cases hc : st₁.batches c with
    | nil => exact ih st₁ st₂ hb he
    | cons d ds =>
      apply ih
      · rfl
      · simp only [List.map_append, he, List.map_cons, evAttempt]

theorem tsLoop_events_indep (f g : String → List SearchDoc → Bool) (cn : String) :
    ∀ (l : List SearchDoc) (st₁ st₂ : TState),
      st₁.batch = st₂.batch →
      st₁.events.map evAttempt = st₂.events.map evAttempt →
      (l.foldl (tsStep f cn) st₁).batch = (l.foldl (tsStep g cn) st₂).batch ∧
      (l.foldl (tsStep f cn) st₁).events.map evAttempt =
        (l.foldl (tsStep g cn) st₂).events.map evAttempt := by
  intro l
  induction l with
  | nil => intro st₁ st₂ hb he; exact ⟨hb, he⟩
  | cons d rest ih =>
    intro st₁ st₂ hb he
    rw [List.foldl_cons, List.foldl_cons]
    apply ih
    · rw [tsStep, tsStep, hb]
      split <;> rfl
    · rw [tsStep, tsStep, hb]
      split
      · simp only [List.map_append, he, List.map_cons, evAttempt]
      · exact he

/-- C3 amended.  For the edge collections (`ingest_edges`) and the search
collection (`ingest_documents`), a failed batch flush is caught and does not
abort: the sequence of attempted batches (collection and contents of every
bulk-import call) is identical under any two sinks, in particular identical
to the all-successful run, so every subsequent batch for the same and for
other collections is still attempted.  For the node collections this fails:
`ingest_nodes` has no try/except and a flush failure aborts it (see the
counterexample). -/
theorem flush_failure_isolation_edges_search
    (f g : String → List EdgeDoc → Bool) (f' g' : String → List SearchDoc → Bool)
    (data : List (String × Node)) (route : List (String × String)) (cn : String) :
    (ingest_edges f data route).events.map evAttempt =
      (ingest_edges g data route).events.map evAttempt ∧
    (ingest_documents f' data cn).events.map evAttempt =
      (ingest_documents g' data cn).events.map evAttempt := by
  constructor
  · rw [ingest_edges, ingest_edges]
    obtain ⟨hb, he⟩ := edgeLoop_events_indep f g (edgeResolutionsOf data route)
      ⟨fun _ => [], []⟩ ⟨fun _ => [], []⟩ rfl rfl
    exact edgeFinalFlush_events_indep f g edgeCollections _ _ hb he
  · rw [ingest_documents, ingest_documents]
    obtain ⟨hb, he⟩ := tsLoop_events_indep f' g' cn (searchDocsOf data)
      ⟨[], [], 0⟩ ⟨[], [], 0⟩ rfl rfl
    simp only [← hb]
    cases hc : ((searchDocsOf data).foldl (tsStep f' cn) ⟨[], [], 0⟩).batch with
    | nil => exact he
    | cons d ds => simp only [List.map_append, he, List.map_cons, evAttempt]

/-- C3 counterexample.  With a sink whose bulk import fails for the
`functions` node collection, `ingest_nodes` on `c3data` aborts with an
uncaught exception after the failed `functions` flush: the non-empty `types`
batch is never attempted, refuting "a failed batch flush is caught ... for
every destination collection" (no try/except surrounds the node-collection
flushes). -/
theorem c3_nodes_abort_counterexample : c3probe = true := by decide

/-! ### Claim C4: batch flush completeness -/

theorem evDocs_append {α : Type} (ev : List (FlushEvent α)) (e : FlushEvent α)
    (c : String) :
    evDocs (ev ++ [e]) c = evDocs ev c ++ (if e.coll == c then e.docs else []) := by
  rw [evDocs, evDocs, List.filter_append, List.flatMap_append]
  cases h : e.coll == c <;> simp [h]

theorem updateB_self {α : Type} (f : String → List α) (k : String) (v : List α) :
    updateB f k v k = v := by
  rw [updateB, if_pos rfl]

theorem updateB_ne {α : Type} (f : String → List α) (k k' : String) (v : List α)
    (h : k' ≠ k) : updateB f k v k' = f k' := by
  rw [updateB, if_neg h]

/-- Loop invariant of the classification loop of `ingest_nodes` under an
all-successful sink: per collection, delivered plus buffered documents equal
the classified documents seen so far; buffers outside `NODE_COLLECTIONS` are
never touched. -/
theorem nodeLoop_alwaysOk (data : List (String × Node)) :
    ∀ (l : List (String × Node)) (st : NState),
      ∃ st', nodeLoop (fun _ _ => true) data l st = .ok st' ∧
        (∀ c, evDocs st'.events c ++ st'.batches c =
          evDocs st.events c ++ st.batches c ++ classifiedTo data l c) ∧
        (∀ c, c ∉ NODE_COLLECTIONS → st'.batches c = st.batches c) := by
  intro l
  induction l with
  | nil =>
    intro st
    exact ⟨st, rfl, fun c => by simp [classifiedTo, nodeDocsOfAux], fun c _ => rfl⟩
  | cons e rest ih =>
    intro st
    rw [nodeLoop]
    cases hd : determine_collection e.2 with
    | none =>
      obtain ⟨st', hrun, hinv, hout⟩ := ih st
      refine ⟨st', ?_, ?_, hout⟩
      · rw [nodeStep, hd]
        exact hrun
      · intro c
        rw [hinv c]
        simp [classifiedTo, nodeDocsOfAux, hd]
    | some col =>
      have hcol : col ∈ NODE_COLLECTIONS := determine_collection_range hd
      have hstep :
          ∃ st₁, nodeStep (fun _ _ => true) data st e = .ok st₁ ∧
            (∀ c, evDocs st₁.events c ++ st₁.batches c =
              evDocs st.events c ++ st.batches c ++
                (if col == c then [mkNodeDoc data e.1 e.2 col] else [])) ∧
            (∀ c, c ≠ col → st₁.batches c = st.batches c) := by
        simp only [nodeStep, hd, if_true]
        split
        · refine ⟨_, rfl, ?_, ?_⟩
          · intro c
            rw [evDocs_append]
            by_cases hc : col = c
            · subst hc
              simp [updateB]
            · have hc' : c ≠ col := fun h => hc h.symm
              have hbc : (col == c) = false := by simp [hc]
              simp [updateB, hbc, hc']
          · intro c hc
            simp [updateB, hc]
        · refine ⟨_, rfl, ?_, ?_⟩
          · intro c
            by_cases hc : col = c
            · subst hc
              simp [updateB]
            · have hc' : c ≠ col := fun h => hc h.symm
              have hbc : (col == c) = false := by simp [hc]
              simp [updateB, hbc, hc']
          · intro c hc
            simp [updateB, hc]
      obtain ⟨st₁, hST, hstepinv, hstepout⟩ := hstep
      rw [hST]
      obtain ⟨st', hrun, hinv, hout⟩ := ih st₁
      refine ⟨st', hrun, ?_, ?_⟩
      · intro c
        rw [hinv c, hstepinv c]
        have : classifiedTo data (e :: rest) c =
            (if col == c then [mkNodeDoc data e.1 e.2 col] else []) ++
              classifiedTo data rest c := by
          rw [classifiedTo, classifiedTo, nodeDocsOfAux, List.filterMap_cons, hd]
          cases hc : col == c <;> simp [hc, nodeDocsOfAux]
        rw [this, List.append_assoc]
      · intro c hc
        rw [hout c hc, hstepout c]
        intro h
        subst h
        exact hc hcol

/-- The final-flush loop of `ingest_nodes` under an all-successful sink
delivers exactly the buffered documents of the listed collections. -/
theorem nodeFinalFlush_alwaysOk :
    ∀ (cs : List String) (st : NState), cs.Nodup →
      ∃ st', nodeFinalFlush (fun _ _ => true) cs st = .ok st' ∧
        ∀ c, evDocs st'.events c =
          evDocs st.events c ++ (if c ∈ cs then st.batches c else []) := by
  intro cs
  induction cs with
  | nil =>
    intro st _
    exact ⟨st, rfl, fun c => by simp⟩
  | cons c₀ rest ih =>
    intro st hnd
    have hc₀ : c₀ ∉ rest := (List.nodup_cons.mp hnd).1
    have hrest : rest.Nodup := (List.nodup_cons.mp hnd).2
    rw [nodeFinalFlush]
    cases hb : st.batches c₀ with
    | nil =>
      obtain ⟨st', hrun, hinv⟩ := ih st hrest
      refine ⟨st', hrun, ?_⟩
      intro c
      rw [hinv c]
      by_cases hc : c = c₀
      · subst hc
        simp [hb, hc₀]
      · simp [List.mem_cons, hc]
    | cons d ds =>
      obtain ⟨st', hrun, hinv⟩ :=
        ih { st with events := st.events ++ [⟨c₀, d :: ds, true⟩] } hrest
      refine ⟨st', hrun, ?_⟩
      intro c
      rw [hinv c]
      by_cases hc : c = c₀
      · subst hc
        rw [evDocs_append]
        simp [hb, hc₀]
      · rw [evDocs_append]
        have hbc : (c₀ == c) = false := by
          rw [beq_eq_false_iff_ne]
          exact fun h => hc h.symm
        simp [hbc, List.mem_cons, hc]

/-- Delivered node documents under an all-successful sink are exactly the
classified documents, for every collection. -/
theorem nodesDelivered_eq (data : List (String × Node)) (c : String) :
    nodesDeliveredTo data c = classifiedTo data data c := by
  obtain ⟨st', hrun, hinv, hout⟩ :=
    nodeLoop_alwaysOk data data ⟨[], fun _ => [], []⟩
  obtain ⟨st'', hrun'', hinv''⟩ :=
    nodeFinalFlush_alwaysOk NODE_COLLECTIONS st' (by decide)
  simp only [nodesDeliveredTo, ingest_nodes, hrun, hrun'']
  rw [hinv'' c]
  have hbase := hinv c
  simp only [evDocs, List.filter_nil, List.flatMap_nil, List.nil_append] at hbase
  by_cases hc : c ∈ NODE_COLLECTIONS
  · rw [if_pos hc, ← hbase]
    rfl
  · rw [if_neg hc, List.append_nil, ← hbase, hout c hc]
    simp
    rfl

/-- Every resolved edge is destined for one of the declared edge
collections. -/
theorem edgeResolutions_coll_mem {data : List (String × Node)}
    {route : List (String × String)} {r : ResolvedEdge}
    (hr : r ∈ edgeResolutionsOf data route) : r.edge_coll ∈ edgeCollections := by
  rw [edgeResolutionsOf] at hr
  obtain ⟨p, _, hrel⟩ := List.mem_flatMap.mp hr
  obtain ⟨rel, _, hres⟩ := List.mem_filterMap.mp hrel
  obtain ⟨⟨rt, hrt⟩, _, _⟩ := resolveRel_inv hres
  exact REL_TO_EDGE_COLLECTION_range hrt

/-- Loop invariant of the `ingest_edges` emission loop under an
all-successful sink. -/
theorem edgeLoop_alwaysOk :
    ∀ (l : List ResolvedEdge) (st : EState),
      (∀ c, evDocs (l.foldl (edgeStep (fun _ _ => true)) st).events c ++
          (l.foldl (edgeStep (fun _ _ => true)) st).batches c =
        evDocs st.events c ++ st.batches c ++
          ((l.filter fun r => r.edge_coll == c).map ResolvedEdge.doc)) ∧
      (∀ c, (∀ r ∈ l, r.edge_coll ≠ c) →
        (l.foldl (edgeStep (fun _ _ => true)) st).batches c = st.batches c) := by
  intro l
  induction l with
  | nil => intro st; exact ⟨fun c => by simp, fun c _ => rfl⟩
  | cons r rest ih =>
    intro st
    rw [List.foldl_cons]
    have hstep :
        (∀ c, evDocs (edgeStep (fun _ _ => true) st r).events c ++
            (edgeStep (fun _ _ => true) st r).batches c =
          evDocs st.events c ++ st.batches c ++
            (if r.edge_coll == c then [r.doc] else [])) ∧
        (∀ c, c ≠ r.edge_coll → (edgeStep (fun _ _ => true) st r).batches c = st.batches c) := by
      rw [edgeStep]
      split
      · constructor
        · intro c
          rw [evDocs_append]
          by_cases hc : r.edge_coll = c
          · subst hc
            simp [updateB]
          · have hc' : c ≠ r.edge_coll := fun h => hc h.symm
            have hbc : (r.edge_coll == c) = false := by simp [hc]
            simp [updateB, hbc, hc']
        · intro c hc
          simp [updateB, hc]
      · constructor
        · intro c
          by_cases hc : r.edge_coll = c
          · subst hc
            simp [updateB]
          · have hc' : c ≠ r.edge_coll := fun h => hc h.symm
            have hbc : (r.edge_coll == c) = false := by simp [hc]
            simp [updateB, hbc, hc']
        · intro c hc
          simp [updateB, hc]
    obtain ⟨ihinv, ihout⟩ := ih (edgeStep (fun _ _ => true) st r)
    refine ⟨?_, ?_⟩
    · intro c
      rw [ihinv c, hstep.1 c]
      have : (r :: rest).filter (fun r => r.edge_coll == c) =
          (if r.edge_coll == c then [r] else []) ++ rest.filter (fun r => r.edge_coll == c) := by
        rw [List.filter_cons]
        cases hc : r.edge_coll == c <;> simp [hc]
      rw [this]
      cases hc : r.edge_coll == c <;> simp [hc, List.append_assoc]
    · intro c hc
      rw [ihout c fun r' hr' => hc r' (List.mem_cons_of_mem r hr'),
        hstep.2 c fun h => hc r (List.mem_cons_self r rest) h.symm]

/-- The final-flush loop of `ingest_edges` delivers the buffered batches of
the listed collections (independently of flush success, the batch is
recorded; under an all-successful sink these are deliveries). -/
theorem edgeFinalFlush_events (f : String → List EdgeDoc → Bool) :
    ∀ (cs : List String) (st : EState), cs.Nodup →
      ∀ c, evDocs (edgeFinalFlush f cs st).events c =
        evDocs st.events c ++ (if c ∈ cs then st.batches c else []) := by
  intro cs
  induction cs with
  | nil => intro st _ c; simp [edgeFinalFlush]
  | cons c₀ rest ih =>
    intro st hnd c
    have hc₀ : c₀ ∉ rest := (List.nodup_cons.mp hnd).1
    have hrest : rest.Nodup := (List.nodup_cons.mp hnd).2
    rw [edgeFinalFlush]
    cases hb : st.batches c₀ with
    | nil =>
      rw [ih st hrest c]
      by_cases hc : c = c₀
      · subst hc
        simp [hb, hc₀]
      · simp [List.mem_cons, hc]
    | cons d ds =>
      rw [ih _ hrest c]
      by_cases hc : c = c₀
      · subst hc
        rw [evDocs_append]
        simp [hb, hc₀]
      · rw [evDocs_append]
        have hbc : (c₀ == c) = false := by
          rw [beq_eq_false_iff_ne]
          exact fun h => hc h.symm
        simp [hbc, List.mem_cons, hc]

/-- Delivered edge documents under an all-successful sink are exactly the
resolved edge documents, for every edge collection. -/
theorem edgesDelivered_eq (data : List (String × Node))
    (route : List (String × String)) (c : String) :
    edgesDeliveredTo data route c = resolvedTo data route c := by
  obtain ⟨hinv, hout⟩ :=
    edgeLoop_alwaysOk (edgeResolutionsOf data route) ⟨fun _ => [], []⟩
  rw [edgesDeliveredTo, ingest_edges,
    edgeFinalFlush_events _ edgeCollections _ (by decide) c]
  have hbase := hinv c
  simp only [evDocs, List.filter_nil, List.flatMap_nil, List.nil_append] at hbase
  by_cases hc : c ∈ edgeCollections
  · rw [if_pos hc]
    rw [resolvedTo, ← hbase]
    rfl
  · rw [if_neg hc, List.append_nil]
    have hb0 : ((edgeResolutionsOf data route).foldl
        (edgeStep (fun _ _ => true)) ⟨fun _ => [], []⟩).batches c = [] := by
      rw [hout c fun r hr h => hc (h ▸ edgeResolutions_coll_mem hr)]
    rw [resolvedTo, ← hbase, hb0, List.append_nil]
    rfl

/-- Loop invariant of the `ingest_documents` loop under an all-successful
sink: delivered plus buffered documents equal those seen so far, and the
success counter lags the stream only by the buffer size. -/
theorem tsLoop_alwaysOk (cn : String) :
    ∀ (l : List SearchDoc) (st : TState),
      evDocs ((l.foldl (tsStep (fun _ _ => true) cn) st).events) cn ++
          (l.foldl (tsStep (fun _ _ => true) cn) st).batch =
        evDocs st.events cn ++ st.batch ++ l ∧
      (l.foldl (tsStep (fun _ _ => true) cn) st).total_indexed +
          (l.foldl (tsStep (fun _ _ => true) cn) st).batch.length =
        st.total_indexed + st.batch.length + l.length := by
  intro l
  induction l with
  | nil => intro st; exact ⟨by simp, by simp⟩
  | cons d rest ih =>
    intro st
    rw [List.foldl_cons]
    have hstep :
        evDocs ((tsStep (fun _ _ => true) cn st d).events) cn ++
            (tsStep (fun _ _ => true) cn st d).batch =
          evDocs st.events cn ++ st.batch ++ [d] ∧
        (tsStep (fun _ _ => true) cn st d).total_indexed +
            (tsStep (fun _ _ => true) cn st d).batch.length =
          st.total_indexed + st.batch.length + 1 := by
      rw [tsStep]
      split
      · constructor
        · rw [evDocs_append]
          simp
        · simp [List.length_append]
          omega
      · constructor
        · simp [List.append_assoc]
        · simp [List.length_append]
          omega
    obtain ⟨ih1, ih2⟩ := ih (tsStep (fun _ _ => true) cn st d)
    constructor
    · rw [ih1, hstep.1]
      simp [List.append_assoc]
    · rw [ih2, hstep.2]
      simp [List.length_cons]
      omega

/-- Delivered search documents under an all-successful sink are exactly the
indexed documents, and `total_indexed` counts them. -/
theorem evDocs_nil {α : Type} (c : String) : evDocs ([] : List (FlushEvent α)) c = [] := rfl

theorem searchDelivered_eq (data : List (String × Node)) (cn : String) :
    searchDelivered data cn = searchDocsOf data ∧
    (ingest_documents (fun _ _ => true) data cn).total_indexed =
      (searchDocsOf data).length := by
  obtain ⟨h1, h2⟩ := tsLoop_alwaysOk cn (searchDocsOf data) ⟨[], [], 0⟩
  simp only [evDocs_nil, List.nil_append, List.length_nil, Nat.zero_add, Nat.add_zero] at h1 h2
  have hres : ingest_documents (fun _ _ => true) data cn =
      (match hb : ((searchDocsOf data).foldl (tsStep (fun _ _ => true) cn)
          ⟨[], [], 0⟩).batch with
       | [] => (searchDocsOf data).foldl (tsStep (fun _ _ => true) cn) ⟨[], [], 0⟩
       | b :: bs =>
         { batch := []
           events := ((searchDocsOf data).foldl (tsStep (fun _ _ => true) cn)
             ⟨[], [], 0⟩).events ++ [⟨cn, b :: bs, true⟩]
           total_indexed := ((searchDocsOf data).foldl (tsStep (fun _ _ => true) cn)
             ⟨[], [], 0⟩).total_indexed + (b :: bs).length }) := by
    rw [ingest_documents]
    cases ((searchDocsOf data).foldl (tsStep (fun _ _ => true) cn) ⟨[], [], 0⟩).batch <;> rfl
  rw [searchDelivered, hres]
  cases hb : ((searchDocsOf data).foldl (tsStep (fun _ _ => true) cn) ⟨[], [], 0⟩).batch with
  | nil =>
    rw [hb, List.append_nil] at h1
    rw [hb, List.length_nil, Nat.add_zero] at h2
    exact ⟨h1, h2⟩
  | cons b bs =>
    rw [hb] at h1 h2
    constructor
    · rw [evDocs_append]
      simp only [beq_self_eq_true, if_true]
      exact h1
    · rw [List.length_cons] at h2
      simp only [List.length_cons]
      omega

/-- C4.  Assuming every flush succeeds, each destination collection — node
collections, edge collections, and the search collection — receives exactly
the documents classified, resolved, or indexed into it, each exactly once,
for every input and hence for every count relative to the batch threshold
(the in-loop flush fires at the threshold; the end-of-stream flush delivers
every non-empty remainder); `total_indexed` equals the number of indexed
documents. -/
theorem batch_flush_completeness (data : List (String × Node))
    (route : List (String × String)) (cn : String) (c : String) :
    nodesDeliveredTo data c = classifiedTo data data c ∧
    edgesDeliveredTo data route c = resolvedTo data route c ∧
    searchDelivered data cn = searchDocsOf data ∧
    (ingest_documents (fun _ _ => true) data cn).total_indexed =
      (searchDocsOf data).length :=
  ⟨nodesDelivered_eq data c, edgesDelivered_eq data route c,
   (searchDelivered_eq data cn).1, (searchDelivered_eq data cn).2⟩

/-! ### Claim C5: key determinism and order independence -/

/-- Association-list lookup is invariant under permutation when the keys are
distinct (as they are for a Python dict). -/
theorem perm_dictGet {α : Type} {l₁ l₂ : List (String × α)} (h : l₁.Perm l₂) :
    (l₁.map Prod.fst).Nodup → ∀ k, dictGet l₁ k = dictGet l₂ k := by
  induction h with
  | nil => intro _ _; rfl
  | cons x h ih =>
    intro hn k
    obtain ⟨a, b⟩ := x
    rw [dictGet, dictGet]
    by_cases hx : a = k
    · rw [if_pos hx, if_pos hx]
    · rw [if_neg hx, if_neg hx]
      exact ih (List.nodup_cons.mp hn).2 k
  | swap x y l =>
    intro hn k
    obtain ⟨a, b⟩ := x
    obtain ⟨c, d⟩ := y
    have hne : c ≠ a := by
      have hh := (List.nodup_cons.mp hn).1
      simp only [List.map_cons, List.mem_cons] at hh
      exact fun h => hh (Or.inl h)
    rw [dictGet, dictGet, dictGet, dictGet]
    by_cases hc : c = k
    · have ha : ¬a = k := fun h => hne (hc.trans h.symm)
      rw [if_pos hc, if_neg ha, if_pos hc]
    · by_cases ha : a = k
      · rw [if_neg hc, if_pos ha, if_pos ha]
      · rw [if_neg hc, if_neg ha, if_neg ha, if_neg hc]
  | trans h₁ h₂ ih₁ ih₂ =>
    intro hn k
    rw [ih₁ hn k, ih₂ (((h₁.map Prod.fst).nodup_iff).mp hn) k]

/-- The routing table's keys are a subsequence of the input keys. -/
theorem routeOf_keys_sublist (data : List (String × Node)) :
    ((routeOf data).map Prod.fst).Sublist (data.map Prod.fst) := by
  induction data with
  | nil => simp [routeOf]
  | cons e rest ih =>
    rw [routeOf, List.filterMap_cons]
    cases hd : determine_collection e.2 with
    | none =>
      simp only [Option.map_none', List.map_cons]
      exact ih.cons e.1
    | some c =>
      simp only [Option.map_some', List.map_cons]
      exact ih.cons₂ e.1

/-- The node storage keys depend only on the classified qnames. -/
theorem nodeDocsOfAux_keys (data l : List (String × Node)) :
    (nodeDocsOfAux data l).map (fun p => p.2._key) =
      l.filterMap fun p => (determine_collection p.2).map fun _ => make_key p.1 := by
  induction l with
  | nil => rfl
  | cons e rest ih =>
    rw [nodeDocsOfAux, List.filterMap_cons, List.filterMap_cons]
    cases hd : determine_collection e.2 with
    | none => simpa [nodeDocsOfAux] using ih
    | some c => simpa [nodeDocsOfAux, mkNodeDoc] using ih

/-- Relation resolution reads the input mapping and the routing table only
through lookups, so it is invariant under pointwise-equal lookups. -/
theorem resolveRel_congr {data₁ data₂ : List (String × Node)}
    {route₁ route₂ : List (String × String)}
    (hd : ∀ k, dictGet data₁ k = dictGet data₂ k)
    (hr : ∀ k, dictGet route₁ k = dictGet route₂ k) :
    ∀ rel, resolveRel data₁ route₁ rel = resolveRel data₂ route₂ rel := by
  intro rel
  unfold resolveRel redirectTarget inferParentTarget
  simp only [hd, hr]

/-- C5.  Node and edge storage keys are pure functions of the entity/relation
strings: on permuted inputs (with distinct qnames, as in a dict) the produced
key multisets are permutations of each other — the key sets are independent
of the iteration order over entities, and identical runs produce identical
keys. -/
theorem key_sets_order_independent (l₁ l₂ : List (String × Node))
    (hp : l₁.Perm l₂) (hn : (l₁.map Prod.fst).Nodup) :
    ((nodeDocsOf l₁).map (fun p => p.2._key)).Perm
      ((nodeDocsOf l₂).map (fun p => p.2._key)) ∧
    ((edgeResolutionsOf l₁ (routeOf l₁)).map (fun r => r.doc._key)).Perm
      ((edgeResolutionsOf l₂ (routeOf l₂)).map (fun r => r.doc._key)) := by
  constructor
  · rw [nodeDocsOf, nodeDocsOf, nodeDocsOfAux_keys, nodeDocsOfAux_keys]
    exact hp.filterMap _
  · have hd : ∀ k, dictGet l₁ k = dictGet l₂ k := perm_dictGet hp hn
    have hrnodup : ((routeOf l₁).map Prod.fst).Nodup :=
      hn.sublist (routeOf_keys_sublist l₁)
    have hr : ∀ k, dictGet (routeOf l₁) k = dictGet (routeOf l₂) k :=
      perm_dictGet (hp.filterMap _) hrnodup
    have hfun : resolveRel l₁ (routeOf l₁) = resolveRel l₂ (routeOf l₂) :=
      funext (resolveRel_congr hd hr)
    rw [edgeResolutionsOf, edgeResolutionsOf, hfun]
    exact ((hp.flatMap_right _).map _)

def c5l₁ : List (String × Node) :=
  [("f", { kind := some "function",
           relations := [{ rel_type := some "CALLS", source := some "f", target := some "C" }] }),
   ("C", { kind := some "class" }),
   ("C.__init__", { kind := some "function" })]

def c5l₂ : List (String × Node) :=
  [("C", { kind := some "class" }),
   ("C.__init__", { kind := some "function" }),
   ("f", { kind := some "function",
           relations := [{ rel_type := some "CALLS", source := some "f", target := some "C" }] })]

/-- C5 witness: a rotated three-entity input with distinct qnames. -/
theorem key_sets_order_independent_witness :
    ((nodeDocsOf c5l₁).map (fun p => p.2._key)).Perm
      ((nodeDocsOf c5l₂).map (fun p => p.2._key)) ∧
    ((edgeResolutionsOf c5l₁ (routeOf c5l₁)).map (fun r => r.doc._key)).Perm
      ((edgeResolutionsOf c5l₂ (routeOf c5l₂)).map (fun r => r.doc._key)) :=
  key_sets_order_independent c5l₁ c5l₂ (by decide) (by decide)

/-! ### Claim C8: search indexing predicate -/

/-- C8.  An entity receives a search document exactly when its kind is one of
{class, function, async_function, module, assignment} and its qname contains
none of the synthetic markers `".param."`, `".return"`, `".yields."`; the
document stream of `ingest_documents` is precisely the `should_index` filter
of the input. -/
theorem should_index_characterization :
    (∀ n : Node, should_index n = true ↔
      ((∃ k, n.kind = some k ∧ k ∈ INDEXABLE_KINDS) ∧
       strContains (n.qualified_name.getD "") ".param." = false ∧
       strContains (n.qualified_name.getD "") ".return" = false ∧
       strContains (n.qualified_name.getD "") ".yields." = false)) ∧
    (∀ data : List (String × Node), searchDocsOf data =
      (data.filter fun p => should_index p.2).map fun p => buildSearchDoc p.1 p.2) := by
  constructor
  · intro n
    rw [should_index]
    cases hk : n.kind with
    | none => simp
    | some k =>
      by_cases hm : k ∈ INDEXABLE_KINDS
      · have hcontains : INDEXABLE_KINDS.contains k = true := List.elem_eq_true_of_mem hm
        cases ha : strContains (n.qualified_name.getD "") ".param." <;>
        cases hb : strContains (n.qualified_name.getD "") ".return" <;>
        cases hc3 : strContains (n.qualified_name.getD "") ".yields." <;>
        simp [ha, hb, hc3, hcontains, hm]
      · have hm' : INDEXABLE_KINDS.contains k = false := by
          cases hc : INDEXABLE_KINDS.contains k
          · rfl
          · exact absurd (List.mem_of_elem_eq_true hc) hm
        simp [hm', hm]
  · intro data
    induction data with
    | nil => rfl
    | cons e rest ih =>
      rw [searchDocsOf, List.filterMap_cons, List.filter_cons]
      cases hs : should_index e.2 <;> simp [hs, searchDocsOf] <;> exact ih

/-! ### Claim C9: assignments without a parent produce nothing -/

theorem dictGet_of_mem_nodup {α : Type} {l : List (String × α)} {q : String} {v : α}
    (hm : (q, v) ∈ l) (hn : (l.map Prod.fst).Nodup) : dictGet l q = some v := by
  induction l with
  | nil => cases hm
  | cons x rest ih =>
    obtain ⟨a, b⟩ := x
    rw [dictGet]
    rcases List.mem_cons.mp hm with he | hm'
    · cases he
      rw [if_pos rfl]
    · have ha : ¬a = q := by
        intro h
        subst h
        have hh := (List.nodup_cons.mp hn).1
        exact hh (List.mem_map.mpr ⟨(a, v), hm', rfl⟩)
      rw [if_neg ha]
      exact ih hm' (List.nodup_cons.mp hn).2

theorem dictGet_none_of_not_mem {α : Type} {l : List (String × α)} {q : String}
    (h : q ∉ l.map Prod.fst) : dictGet l q = none := by
  induction l with
  | nil => rfl
  | cons x rest ih =>
    rw [dictGet]
    simp only [List.map_cons, List.mem_cons] at h
    rw [if_neg (fun he => h (Or.inl he.symm))]
    exact ih fun hm => h (Or.inr hm)

/-- On distinct keys, the routing table is the input lookup post-composed
with classification. -/
theorem dictGet_routeOf {data : List (String × Node)} {q : String}
    (hn : (data.map Prod.fst).Nodup) :
    dictGet (routeOf data) q = (dictGet data q).bind determine_collection := by
  induction data with
  | nil => rfl
  | cons e rest ih =>
    obtain ⟨a, b⟩ := e
    have hrest := (List.nodup_cons.mp hn).2
    have hhead := (List.nodup_cons.mp hn).1
    rw [routeOf, List.filterMap_cons]
    cases hd : determine_collection b with
    | some c =>
      simp only [Option.map_some']
      rw [dictGet, dictGet]
      by_cases ha : a = q
      · rw [if_pos ha, if_pos ha, Option.some_bind, hd]
      · rw [if_neg ha, if_neg ha, ← routeOf]
        exact ih hrest
    | none =>
      simp only [Option.map_none']
      rw [dictGet]
      by_cases ha : a = q
      · rw [if_pos ha, Option.some_bind, hd, ← routeOf]
        subst ha
        exact dictGet_none_of_not_mem
          (fun hq => hhead ((routeOf_keys_sublist rest).subset hq))
      · rw [if_neg ha, ← routeOf]
        exact ih hrest

/-- C9.  An entity of kind `assignment` or `augmented_assignment` whose
`parent_qualified_name` is absent or empty classifies to nothing: no node
document for its qname is emitted and the routing table has no entry for it
(keys of a dict are distinct). -/
theorem assignment_without_parent_produces_nothing (n : Node)
    (hk : n.kind = some "assignment" ∨ n.kind = some "augmented_assignment")
    (hp : n.parent_qualified_name = none ∨ n.parent_qualified_name = some "") :
    determine_collection n = none ∧
    ∀ (data : List (String × Node)) (q : String),
      (data.map Prod.fst).Nodup → (q, n) ∈ data →
        dictGet (routeOf data) q = none ∧
        ∀ p ∈ nodeDocsOf data, p.2.qname ≠ q := by
  have hKC : KIND_TO_COLLECTION "assignment" = some (some "members") := rfl
  have hKC' : KIND_TO_COLLECTION "augmented_assignment" = some (some "members") := rfl
  have hdet : determine_collection n = none := by
    rcases hk with hk | hk <;>
    · simp only [determine_collection, hk, hKC, hKC']
      rcases hp with hp | hp <;> simp [hp, truthy]
  refine ⟨hdet, ?_⟩
  intro data q hn hm
  have hq : dictGet data q = some n := dictGet_of_mem_nodup hm hn
  constructor
  · rw [dictGet_routeOf hn, hq, Option.some_bind, hdet]
  · intro p hp' heq
    rw [nodeDocsOf, nodeDocsOfAux] at hp'
    obtain ⟨e, hmem, he⟩ := List.mem_filterMap.mp hp'
    obtain ⟨c, hc, hpe⟩ := Option.map_eq_some'.mp he
    have hqe : p.2.qname = e.1 := by
      rw [← hpe]
      rfl
    have he1 : e.1 = q := by rw [← hqe, heq]
    have hmem' : (q, e.2) ∈ data := by
      rw [← he1]
      exact hmem
    have hne : e.2 = n := by
      have := dictGet_of_mem_nodup hmem' hn
      rw [hq] at this
      exact (Option.some_injective _ this).symm
    rw [hne, hdet] at hc
    cases hc

def c9node : Node := { kind := some "assignment" }

/-- C9 witness: a parentless assignment in a singleton input. -/
theorem assignment_without_parent_produces_nothing_witness :
    determine_collection c9node = none ∧
    (dictGet (routeOf [("x", c9node)]) "x" = none ∧
     ∀ p ∈ nodeDocsOf [("x", c9node)], p.2.qname ≠ "x") := by
  have h := assignment_without_parent_produces_nothing c9node (Or.inl rfl) (Or.inl rfl)
  exact ⟨h.1, h.2 [("x", c9node)] "x" (by decide) (by simp)⟩

/-! ### Claim C10: name fallback is the last qname segment -/

theorem splitChar_ne_nil (sep : Char) (l : List Char) : splitChar sep l ≠ [] := by
  cases l with
  | nil => simp [splitChar]
  | cons c rest =>
    rw [splitChar]
    cases hs : splitChar sep rest with
    | nil => simp
    | cons h t => cases hc : c == sep <;> simp [hc]

theorem splitChar_no_sep {sep : Char} {l : List Char} (h : sep ∉ l) :
    splitChar sep l = [l] := by
  induction l with
  | nil => rfl
  | cons c rest ih =>
    have hc : ¬c = sep := fun he => h (by rw [← he]; exact List.mem_cons_self c rest)
    have hr : sep ∉ rest := fun hm => h (List.mem_cons_of_mem c hm)
    rw [splitChar, ih hr]
    have hb : (c == sep) = false := by simp [hc]
    simp [hb]

theorem splitChar_with_sep {sep : Char} {l : List Char} (h : sep ∈ l) :
    ∃ a b t, splitChar sep l = a :: b :: t := by
  induction l with
  | nil => cases h
  | cons c rest ih =>
    by_cases hc : c = sep
    · cases hs : splitChar sep rest with
      | nil => exact absurd hs (splitChar_ne_nil sep rest)
      | cons h' t' =>
        refine ⟨[], h', t', ?_⟩
        have hb : (c == sep) = true := by simp [hc]
        rw [splitChar, hs]
        simp [hb]
    · have hr : sep ∈ rest := by
        rcases List.mem_cons.mp h with he | hm
        · exact absurd he.symm hc
        · exact hm
      obtain ⟨a, b, t, hs⟩ := ih hr
      refine ⟨c :: a, b, t, ?_⟩
      have hb : (c == sep) = false := by simp [hc]
      rw [splitChar, hs]
      simp [hb]

theorem takeWhile_append_stop {p : Char → Bool} {l₁ : List Char} (l₂ : List Char)
    (h : ∃ x ∈ l₁, p x = false) : (l₁ ++ l₂).takeWhile p = l₁.takeWhile p := by
  induction l₁ with
  | nil =>
    obtain ⟨x, hx, _⟩ := h
    cases hx
  | cons a t ih =>
    rw [List.cons_append, List.takeWhile_cons, List.takeWhile_cons]
    cases hp : p a
    · rfl
    · obtain ⟨x, hx, hpx⟩ := h
      rcases List.mem_cons.mp hx with he | hm
      · subst he
        rw [hp] at hpx
        cases hpx
      · rw [ih ⟨x, hm, hpx⟩]

theorem takeWhile_append_all {p : Char → Bool} {l₁ : List Char} (l₂ : List Char)
    (h : ∀ x ∈ l₁, p x = true) : (l₁ ++ l₂).takeWhile p = l₁ ++ l₂.takeWhile p := by
  induction l₁ with
  | nil => simp
  | cons a t ih =>
    rw [List.cons_append, List.takeWhile_cons, h a (List.mem_cons_self a t),
      List.cons_append, ih fun x hx => h x (List.mem_cons_of_mem a hx)]
    rfl

/-- The last element of the single-character split is the reversed
take-while-not-separator of the reversed string: the suffix after the last
separator. -/
theorem lastD_splitChar (sep : Char) (l : List Char) :
    lastD (splitChar sep l) = (l.reverse.takeWhile (fun c => c != sep)).reverse := by
  induction l with
  | nil => rfl
  | cons c rest ih =>
    rw [List.reverse_cons]
    by_cases hmem : sep ∈ rest
    · have hbad : ∃ x ∈ rest.reverse, (fun c => c != sep) x = false :=
        ⟨sep, List.mem_reverse.mpr hmem, by simp⟩
      rw [takeWhile_append_stop _ hbad]
      obtain ⟨a, b, t, hs⟩ := splitChar_with_sep hmem
      rw [hs] at ih
      rw [lastD] at ih
      rw [splitChar, hs]
      cases hc : c == sep
      · simp only [Bool.false_eq_true, if_false]
        rw [lastD]
        exact ih
      · simp only [if_true]
        rw [lastD]
        exact ih
    · have hall : ∀ x ∈ rest.reverse, (fun c => c != sep) x = true := by
        intro x hx
        have hxne : x ≠ sep := fun he => hmem (by rw [← he]; exact List.mem_reverse.mp hx)
        simp [hxne]
      rw [splitChar, splitChar_no_sep hmem, takeWhile_append_all _ hall]
      cases hc : c == sep
      · have hcne : (c != sep) = true := by simp [bne, hc]
        simp only [Bool.false_eq_true, if_false]
        rw [List.takeWhile_cons, hcne]
        simp [lastD]
      · have hcne : (c != sep) = false := by simp [bne, hc]
        simp only [if_true]
        rw [List.takeWhile_cons, hcne]
        simp [lastD]

/-- The code's `qname.split(".")[-1]` equals the spec's "substring of the
qname after its last dot (the whole qname when it contains no dot)". -/
theorem lastSegment_eq_specAfterLastDot (s : String) :
    lastSegment s = specAfterLastDot s := by
  rw [lastSegment, specAfterLastDot, lastD_splitChar]

/-- C10.  For an indexed entity whose `name` attribute is absent or empty,
the search document's `name` field — and the input to name-variant
generation — is the substring of the entity's qname after its last `"."`
(the whole qname when it has no dot). -/
theorem search_name_fallback (q : String) (n : Node)
    (_hi : should_index n = true)
    (hname : n.name = none ∨ n.name = some "") :
    (buildSearchDoc q n).name = specAfterLastDot q ∧
    (buildSearchDoc q n).name_variants =
      make_name_variants (some (specAfterLastDot q)) := by
  have htr : truthy n.name = none := by
    rcases hname with h | h <;> simp [h, truthy]
  have hnm : (buildSearchDoc q n).name = lastSegment q := by
    rw [buildSearchDoc, htr]
  have hv : (buildSearchDoc q n).name_variants =
      make_name_variants (some (lastSegment q)) := by
    rw [buildSearchDoc, htr]
  rw [hnm, hv, lastSegment_eq_specAfterLastDot]
  exact ⟨rfl, rfl⟩

/-- C10 witness: a module entity with no `name` attribute and a dotted
qname. -/
theorem search_name_fallback_witness :
    (buildSearchDoc "a.b.c" { kind := some "module" }).name = specAfterLastDot "a.b.c" ∧
    (buildSearchDoc "a.b.c" { kind := some "module" }).name_variants =
      make_name_variants (some (specAfterLastDot "a.b.c")) :=
  search_name_fallback "a.b.c" { kind := some "module" } (by decide) (Or.inl rfl)

end BG
